import Mathlib

/-!
Shallow embedding of the sortable-nanoid identifier generator
(`src/sortable-id.ts`, reference implementation `generator.go`).

Strings are modelled as `List Char`, the JavaScript `number`s used for
time arithmetic as exact rationals (`ℚ`), and counters as `ℕ`/`ℤ`.
`Math.floor`/`Math.ceil` become `Int.floor`/`Int.ceil`; the float
`Math.ceil(Math.log t / Math.log b)` is idealised as the exact
ceiling logarithm.  The secure random source is an oracle argument
(the drawn machine-id string, the drawn byte), as the spec directs.
-/

namespace SortableNanoid

/-- Resolved generator configuration: the fields of `SortableIDGenerator`
that are fixed at construction time (`alphabet`, `totalLength`,
`timestampLength`, `chronoLength`, `timestampStart`/`LEVEL_TO_MS` as
millisecond rationals, `maxTimestamp`). -/
structure Gen where
  alphabet : List Char
  totalLength : ℕ
  timestampLength : ℕ
  chronoLength : ℕ
  startMs : ℚ
  levelMs : ℚ
  maxTimestamp : ℚ
deriving Repr, DecidableEq

/-- `this.base = this.alphabet.length`. -/
def Gen.base (g : Gen) : ℕ := g.alphabet.length

/-- `this.alphabet[0]`, the minimum symbol. -/
def alpha0 (g : Gen) : Char := g.alphabet.getD 0 '?'

/-- `this.alphabet[this.alphabet.length - 1]`, the maximum symbol. -/
def maxChar (g : Gen) : Char := g.alphabet.getD (g.alphabet.length - 1) '?'

/-- JavaScript `String.prototype.indexOf` / Go `strings.IndexByte`:
the symbol's position in the alphabet, or `-1` when absent. -/
def jsIndexOf (alpha : List Char) (c : Char) : ℤ :=
  if c ∈ alpha then (alpha.indexOf c : ℤ) else -1

/-- The body of the odometer loop of `incrementSymbols` /
`incrementRandomPart` / `incrementStringPart`, acting on the reversed
symbol list (the sources scan from the last position backwards).
`some out` models the early `return` with the incremented string;
`none` models falling through the whole loop with every position
rolled over to `alphabet[0]`. -/
def incRev (alpha : List Char) : List Char → Option (List Char)
  | [] => none
  | c :: rest =>
    let idx := jsIndexOf alpha c
    if idx < (alpha.length : ℤ) - 1 then
      some (alpha.getD (idx + 1).toNat '?' :: rest)
    else
      match incRev alpha rest with
      | some out => some (alpha.getD 0 '?' :: out)
      | none => none

/-- `Generator.incrementSymbols` (generator.go): on overflow the loop
has rolled every position over to `alphabet[0]` and that all-minimum
string is returned. -/
def incrementSymbols (alpha : List Char) (s : List Char) : List Char :=
  match incRev alpha s.reverse with
  | some out => out.reverse
  | none => List.replicate s.length (alpha.getD 0 '?')

/-- `this.minChronoPart = this.alphabet[0].repeat(this.chronoLength)`. -/
def minChronoPart (g : Gen) : List Char := List.replicate g.chronoLength (alpha0 g)

/-- `machineIdLength = totalLength - timestampLength - chronoLength`. -/
def machineIdLength (g : Gen) : ℕ := g.totalLength - g.timestampLength - g.chronoLength

/-- `this.minMachineIdPart = this.alphabet[0].repeat(machineIdLength)`. -/
def minMachineIdPart (g : Gen) : List Char :=
  List.replicate (machineIdLength g) (alpha0 g)

/-- `SortableIDGenerator.incrementStringPart` (sortable-id.ts): same
odometer loop; on overflow it returns the all-minimum chrono part or
the all-minimum machine-id part according to the input's length. -/
def incrementStringPart (g : Gen) (value : List Char) : List Char :=
  match incRev g.alphabet value.reverse with
  | some out => out.reverse
  | none => if value.length = g.chronoLength then minChronoPart g else minMachineIdPart g

/-- `SortableIDGenerator.isMaxValue`: every symbol is the maximum
alphabet symbol. -/
def isMaxValue (alpha : List Char) (value : List Char) : Bool :=
  value.all fun c => c == alpha.getD (alpha.length - 1) '?'

/-- The accumulation loop shared by `decode` and the timestamp decoding:
`timestamp = timestamp * base + indexOf(symbol)`, left to right. -/
def decodeValue (alpha : List Char) (s : List Char) : ℤ :=
  s.foldl (fun acc c => acc * (alpha.length : ℤ) + jsIndexOf alpha c) 0

/-- The `while (remaining > 0)` digit loop of `encodeTimestamp`,
structurally fuelled (the loop runs at most `n` times for base ≥ 2).
Produces the base-N digits of `n`, most significant first. -/
def natToSymsAux (alpha : List Char) : ℕ → ℕ → List Char
  | 0, _ => []
  | fuel + 1, n =>
    if n = 0 then []
    else natToSymsAux alpha fuel (n / alpha.length) ++ [alpha.getD (n % alpha.length) '?']

/-- `SortableIDGenerator.encodeTimestamp`: `Math.floor` the timestamp,
emit base-N digits most significant first, left-pad with `alphabet[0]`
to `timestampLength` (`padStart` never truncates). -/
def encodeTimestamp (g : Gen) (timestamp : ℚ) : List Char :=
  let remaining : ℕ := (Int.floor timestamp).toNat
  if remaining = 0 then List.replicate g.timestampLength (alpha0 g)
  else
    let result := natToSymsAux g.alphabet remaining remaining
    List.replicate (g.timestampLength - result.length) (alpha0 g) ++ result

/-- Errors surfaced by `decode`. -/
inductive DecodeError
  | badLength
  | badChar
deriving Repr, DecidableEq

/-- The record returned by `decode`: the instant (in milliseconds) and
the chrono / machine-id substrings. -/
structure Decoded where
  timestampMs : ℚ
  chronoPart : List Char
  machineId : List Char
deriving Repr, DecidableEq

/-- `SortableIDGenerator.decode`: validate length and alphabet
membership, then decode only the timestamp field and slice out the
chrono and machine-id parts. -/
def decode (g : Gen) (id : List Char) : Except DecodeError Decoded :=
  if id.length = 0 ∨ id.length ≠ g.totalLength then .error .badLength
  else if id.any (fun c => !(g.alphabet.contains c)) then .error .badChar
  else
    let timestamp := decodeValue g.alphabet (id.take g.timestampLength)
    .ok { timestampMs := g.startMs + (timestamp : ℚ) * g.levelMs
        , chronoPart := (id.drop g.timestampLength).take g.chronoLength
        , machineId := id.drop (g.timestampLength + g.chronoLength) }

/-- Errors surfaced by `generate`. -/
inductive GenError
  | negativeTimespan
  | timestampExhausted
  | rateExceeded
deriving Repr, DecidableEq

/-- The mutable issuance state of a generator instance. -/
structure GenState where
  lastTimeSpan : ℚ
  lastId : List Char
  lastChronoPart : List Char
deriving Repr, DecidableEq

/-- The state right after the constructor ran: `lastTimeSpan = 0`,
`lastId = ''`, `lastChronoPart = minChronoPart`. -/
def initState (g : Gen) : GenState :=
  { lastTimeSpan := 0, lastId := [], lastChronoPart := minChronoPart g }

/-- `getTimespan`: elapsed time since the epoch start in granularity
units (the source throws on a negative result; `generate` models that
by checking the sign first). -/
def getTimespan (g : Gen) (nowMs : ℚ) : ℚ := (nowMs - g.startMs) / g.levelMs

/-- `SortableIDGenerator.generate` as a state-transition function, with
`timespan = getTimespan g nowMs` already computed from the clock (see
`generateNow`) and `freshMachineId` the string the nanoid
`genRandomPart()` oracle would deliver for a new time bucket.  The
post-call state is returned on every path, because the source mutates
`this.lastChronoPart` to the minimum chrono part *before* the
RateExceeded throw, so that assignment survives the failed call. -/
def generate (g : Gen) (st : GenState) (timespan : ℚ) (freshMachineId : List Char) :
    Except GenError (List Char) × GenState :=
  if timespan < 0 then (.error .negativeTimespan, st)
  else if g.maxTimestamp ≤ timespan then (.error .timestampExhausted, st)
  else if timespan = st.lastTimeSpan then
    let newChronoPart := incrementStringPart g st.lastChronoPart
    if newChronoPart = minChronoPart g then
      let st1 := { st with lastChronoPart := minChronoPart g }
      let lastMachineId := st1.lastId.drop (g.timestampLength + g.chronoLength)
      let newMachineId := incrementStringPart g lastMachineId
      if newMachineId = minMachineIdPart g then (.error .rateExceeded, st1)
      else
        let id := encodeTimestamp g timespan ++ st1.lastChronoPart ++ newMachineId
        (.ok id, { st1 with lastId := id })
    else
      let id := encodeTimestamp g timespan ++ newChronoPart
                  ++ st.lastId.drop (g.timestampLength + g.chronoLength)
      (.ok id, { st with lastChronoPart := newChronoPart, lastId := id })
  else
    let id := encodeTimestamp g timespan ++ minChronoPart g ++ freshMachineId
    (.ok id, { lastTimeSpan := timespan, lastChronoPart := minChronoPart g, lastId := id })

/-- `generate` driven by a clock reading, exactly as in the source:
first the elapsed timespan is computed by `getTimespan`, then the
state machine runs. -/
def generateNow (g : Gen) (st : GenState) (nowMs : ℚ) (freshMachineId : List Char) :
    Except GenError (List Char) × GenState :=
  generate g st (getTimespan g nowMs) freshMachineId

/-- `getMaxDate` in milliseconds: `timestampStart + maxTimestamp * unit`,
capped at JavaScript's maximum date value. -/
def getMaxDateMs (g : Gen) : ℚ :=
  min (g.startMs + g.maxTimestamp * g.levelMs) 8640000000000000

/-- `calculateRequiredLength`: `Math.ceil(Math.log(timespan) / Math.log(base))`,
idealised as the exact ceiling logarithm of the (ceiled) timespan. -/
def calculateRequiredLength (base : ℕ) (timespan : ℚ) : ℕ :=
  Nat.clog base (Int.ceil timespan).toNat

/-- `calculateMaxTimestamp`: `Math.pow(base, length)`. -/
def calculateMaxTimestamp (base : ℕ) (length : ℕ) : ℚ := (base : ℚ) ^ length

/-- The byte-to-index map of `fillCharPool` (sortable-id.ts):
`bytes[i] % (this.alphabet.length - 1)`. -/
def fillCharPoolIndex (alpha : List Char) (b : ℕ) : ℕ := b % (alpha.length - 1)

/-- The `for i := 1; i <= 8` search of `getMask` (generator.go), fuelled
by the remaining iteration count; the returned mask passes through the
`byte(...)` truncation. -/
def getMaskLoop (alphabetSize : ℕ) : ℕ → ℕ → ℕ
  | 0, _ => 0
  | fuel + 1, i =>
    let mask := 2 <<< i - 1
    if alphabetSize - 1 ≤ mask then mask % 256 else getMaskLoop alphabetSize fuel (i + 1)

/-- `getMask` (generator.go). -/
def getMask (alphabetSize : ℕ) : ℕ := getMaskLoop alphabetSize 8 1

/-- One draw of `Generator.getRandomChar` (generator.go): mask the byte,
reject (`none`, forcing a redraw) when the masked index is out of range. -/
def getRandomCharIndex (alphabetSize : ℕ) (b : ℕ) : Option ℕ :=
  let randomIndex := getMask alphabetSize &&& b
  if alphabetSize ≤ randomIndex then none else some randomIndex

/-- Following the spec's words only (for comparison with `getMask`):
"a bit-mask sized to the smallest power of two ≥ alphabet size, minus one". -/
def specMask (alphabetSize : ℕ) : ℕ := 2 ^ Nat.clog 2 alphabetSize - 1

/-- Following the spec's words only (for comparison with
`calculateRequiredLength`): the minimum width `w` such that
`alphabet_size ^ w` strictly exceeds the number of time-bucket units. -/
def specTimestampWidth (base units : ℕ) : ℕ := Nat.clog base (units + 1)

/-- Concrete binary-alphabet generator used for the concrete traces:
alphabet `"01"`, total length 6 = 3 (timestamp) + 1 (chrono) + 2
(machine id), epoch start 0 at unit granularity, `maxTimestamp` 5
(so `timestampLength = calculateRequiredLength 2 5 = 3`). -/
def gBin : Gen :=
  { alphabet := ['0', '1'], totalLength := 6, timestampLength := 3, chronoLength := 1
  , startMs := 0, levelMs := 1, maxTimestamp := 5 }

instance {ε α : Type} [DecidableEq ε] [DecidableEq α] : DecidableEq (Except ε α) := fun a b =>
  match a, b with
  | .ok x, .ok y => if h : x = y then .isTrue (by rw [h]) else .isFalse (by simp [h])
  | .error x, .error y => if h : x = y then .isTrue (by rw [h]) else .isFalse (by simp [h])
  | .ok _, .error _ => .isFalse (by simp)
  | .error _, .ok _ => .isFalse (by simp)

/-- Little-endian numeric value of a symbol list (least significant
symbol first); the reversal of the big-endian reading `decodeValue`. -/
def valLE (alpha : List Char) : List Char → ℕ
  | [] => 0
  | c :: rest => alpha.indexOf c + alpha.length * valLE alpha rest

/-- State after the first call of the trace (fresh bucket 1, drawn
machine id "00"): last identifier "001000". -/
def stA : GenState :=
  { lastTimeSpan := 1, lastId := ['0', '0', '1', '0', '0', '0'], lastChronoPart := ['0'] }

/-- State after the second call (chrono cascade success): "001100". -/
def stB : GenState :=
  { lastTimeSpan := 1, lastId := ['0', '0', '1', '1', '0', '0'], lastChronoPart := ['1'] }

/-- State after the third call (chrono overflow, machine id cascaded,
chrono reset to minimum): "001001". -/
def stC : GenState :=
  { lastTimeSpan := 1, lastId := ['0', '0', '1', '0', '0', '1'], lastChronoPart := ['0'] }

/-- State after a fresh-bucket call drawing machine id "11": last
identifier "001011". -/
def stP : GenState :=
  { lastTimeSpan := 1, lastId := ['0', '0', '1', '0', '1', '1'], lastChronoPart := ['0'] }

/-- Fully saturated state: chrono and machine-id fields both at the
maximum symbol, last identifier "001111". -/
def stMax : GenState :=
  { lastTimeSpan := 1, lastId := ['0', '0', '1', '1', '1', '1'], lastChronoPart := ['1'] }

/-- State left behind by a RateExceeded failure from `stMax`: the
source resets `lastChronoPart` to the minimum before throwing, while
`lastId` keeps the saturated identifier "001111". -/
def stErr : GenState :=
  { lastTimeSpan := 1, lastId := ['0', '0', '1', '1', '1', '1'], lastChronoPart := ['0'] }

/-- Constructor-derived wellformedness of a resolved configuration:
sorted-deduplicated alphabet of size ≥ 2, chrono width ≥ 1, total
length covering timestamp + chrono + at least one machine-id symbol,
and a `maxTimestamp` representable in the timestamp field. -/
def GenOK (g : Gen) : Prop :=
  g.alphabet.Nodup ∧ 2 ≤ g.base ∧ 1 ≤ g.chronoLength ∧
    g.timestampLength + g.chronoLength + 1 ≤ g.totalLength ∧
    g.maxTimestamp ≤ (g.base : ℚ) ^ g.timestampLength

theorem jsIndexOf_of_mem {alpha : List Char} {c : Char} (h : c ∈ alpha) :
    jsIndexOf alpha c = (alpha.indexOf c : ℤ) := by
  simp [jsIndexOf, h]

theorem decodeValue_append_singleton (alpha : List Char) (s : List Char) (c : Char) :
    decodeValue alpha (s ++ [c]) =
      decodeValue alpha s * alpha.length + jsIndexOf alpha c := by
  simp [decodeValue]

theorem decodeValue_eq_valLE_reverse {alpha : List Char} :
    ∀ {s : List Char}, (∀ c ∈ s, c ∈ alpha) →
      decodeValue alpha s = (valLE alpha s.reverse : ℤ) := by
  intro s
  induction s using List.reverseRecOn with
  | nil => intro _; simp [decodeValue, valLE]
  | append_singleton s c ih =>
    intro hmem
    have hc : c ∈ alpha := hmem c (by simp)
    rw [decodeValue_append_singleton, ih (fun x hx => hmem x (by simp [hx])),
      jsIndexOf_of_mem hc]
    simp [valLE]
    ring

theorem indexOf_getD_of_lt {alpha : List Char} (hnd : alpha.Nodup) {i : ℕ}
    (h : i < alpha.length) : alpha.indexOf (alpha.getD i '?') = i := by
  rw [List.getD_eq_getElem alpha '?' h]
  exact List.indexOf_getElem hnd i h

theorem getD_mem_of_lt {alpha : List Char} {i : ℕ} (h : i < alpha.length) :
    alpha.getD i '?' ∈ alpha := by
  rw [List.getD_eq_getElem alpha '?' h]
  exact List.getElem_mem h

theorem incRev_some_spec {alpha : List Char} (hnd : alpha.Nodup)
    (h2 : 2 ≤ alpha.length) :
    ∀ {r out : List Char}, (∀ c ∈ r, c ∈ alpha) → incRev alpha r = some out →
      valLE alpha out = valLE alpha r + 1 ∧ out.length = r.length ∧
        (∀ c ∈ out, c ∈ alpha) := by
  intro r
  induction r with
  | nil => intro out _ h; simp [incRev] at h
  | cons c rest ih =>
    intro out hmem h
    have hc : c ∈ alpha := hmem c (by simp)
    have hidx : alpha.indexOf c < alpha.length := List.indexOf_lt_length.2 hc
    rw [incRev, jsIndexOf_of_mem hc] at h
    by_cases hlt : (alpha.indexOf c : ℤ) < (alpha.length : ℤ) - 1
    · rw [if_pos hlt] at h
      have hlt' : alpha.indexOf c + 1 < alpha.length := by omega
      have : out = alpha.getD ((alpha.indexOf c : ℤ) + 1).toNat '?' :: rest :=
        (Option.some.inj h).symm
      subst this
      have htn : ((alpha.indexOf c : ℤ) + 1).toNat = alpha.indexOf c + 1 := by omega
      refine ⟨?_, by simp, ?_⟩
      · simp only [valLE, htn, indexOf_getD_of_lt hnd hlt']
        ring
      · intro x hx
        rcases List.mem_cons.1 hx with h1 | h1
        · subst h1; rw [htn]; exact getD_mem_of_lt hlt'
        · exact hmem x (by simp [h1])
    · rw [if_neg hlt] at h
      have hmax : alpha.indexOf c = alpha.length - 1 := by omega
      cases hrec : incRev alpha rest with
      | none => rw [hrec] at h; exact absurd h (by simp)
      | some out' =>
        rw [hrec] at h
        have hout : out = alpha.getD 0 '?' :: out' :=
          (Option.some.inj h).symm
        subst hout
        obtain ⟨hv, hl, hm⟩ := ih (fun x hx => hmem x (by simp [hx])) hrec
        have h0 : (0 : ℕ) < alpha.length := by omega
        refine ⟨?_, by simp [hl], ?_⟩
        · simp only [valLE, indexOf_getD_of_lt hnd h0, hv, hmax]
          have : alpha.length - 1 + 1 = alpha.length := by omega
          rw [Nat.mul_add, Nat.mul_one]
          omega
        · intro x hx
          rcases List.mem_cons.1 hx with h1 | h1
          · subst h1; exact getD_mem_of_lt h0
          · exact hm x h1

theorem incRev_none_iff {alpha : List Char} (hnd : alpha.Nodup)
    (h2 : 2 ≤ alpha.length) :
    ∀ {r : List Char}, (∀ c ∈ r, c ∈ alpha) →
      (incRev alpha r = none ↔ ∀ c ∈ r, c = alpha.getD (alpha.length - 1) '?') := by
  intro r
  induction r with
  | nil => intro _; simp [incRev]
  | cons c rest ih =>
    intro hmem
    have hc : c ∈ alpha := hmem c (by simp)
    have hidx : alpha.indexOf c < alpha.length := List.indexOf_lt_length.2 hc
    have hmax_lt : alpha.length - 1 < alpha.length := by omega
    constructor
    · intro h
      rw [incRev, jsIndexOf_of_mem hc] at h
      by_cases hlt : (alpha.indexOf c : ℤ) < (alpha.length : ℤ) - 1
      · rw [if_pos hlt] at h; exact absurd h (by simp)
      · rw [if_neg hlt] at h
        have hcm : alpha.indexOf c = alpha.length - 1 := by omega
        have hceq : c = alpha.getD (alpha.length - 1) '?' := by
          have := indexOf_getD_of_lt hnd hmax_lt
          have hinj := List.indexOf_inj hc (getD_mem_of_lt hmax_lt)
          exact hinj.1 (by rw [hcm, this])
        cases hrec : incRev alpha rest with
        | none =>
          intro x hx
          rcases List.mem_cons.1 hx with h1 | h1
          · subst h1; exact hceq
          · exact (ih (fun y hy => hmem y (by simp [hy]))).1 hrec x h1
        | some out' => rw [hrec] at h; exact absurd h (by simp)
    · intro hall
      have hceq : c = alpha.getD (alpha.length - 1) '?' := hall c (by simp)
      have hcm : alpha.indexOf c = alpha.length - 1 := by
        rw [hceq]; exact indexOf_getD_of_lt hnd hmax_lt
      have hrest : incRev alpha rest = none :=
        (ih (fun y hy => hmem y (by simp [hy]))).2
          (fun x hx => hall x (by simp [hx]))
      rw [incRev, jsIndexOf_of_mem hc, if_neg (by omega), hrest]

theorem valLE_replicate_zero {alpha : List Char} (hnd : alpha.Nodup)
    (h2 : 2 ≤ alpha.length) (n : ℕ) :
    valLE alpha (List.replicate n (alpha.getD 0 '?')) = 0 := by
  induction n with
  | zero => simp [valLE]
  | succ k ih =>
    rw [List.replicate_succ]
    simp only [valLE, ih, indexOf_getD_of_lt hnd (by omega : (0:ℕ) < alpha.length)]
    omega

theorem isMaxValue_iff {alpha s : List Char} :
    isMaxValue alpha s = true ↔ ∀ c ∈ s, c = alpha.getD (alpha.length - 1) '?' := by
  simp [isMaxValue]

theorem incRev_eq_none_of_max {alpha : List Char} (hnd : alpha.Nodup)
    (h2 : 2 ≤ alpha.length) {s : List Char} (hmem : ∀ c ∈ s, c ∈ alpha)
    (hmax : isMaxValue alpha s = true) : incRev alpha s.reverse = none := by
  refine (incRev_none_iff hnd h2 ?_).2 ?_
  · intro c hc; exact hmem c (List.mem_reverse.1 hc)
  · intro c hc; exact isMaxValue_iff.1 hmax c (List.mem_reverse.1 hc)

theorem incrementSymbols_spec_not_max {alpha : List Char} (hnd : alpha.Nodup)
    (h2 : 2 ≤ alpha.length) {s : List Char} (hmem : ∀ c ∈ s, c ∈ alpha)
    (hnm : isMaxValue alpha s = false) :
    decodeValue alpha (incrementSymbols alpha s) = decodeValue alpha s + 1 ∧
      (incrementSymbols alpha s).length = s.length ∧
      (∀ c ∈ incrementSymbols alpha s, c ∈ alpha) := by
  have hmemr : ∀ c ∈ s.reverse, c ∈ alpha := fun c hc => hmem c (List.mem_reverse.1 hc)
  cases hrec : incRev alpha s.reverse with
  | none =>
    exfalso
    have := (incRev_none_iff hnd h2 hmemr).1 hrec
    have : isMaxValue alpha s = true :=
      isMaxValue_iff.2 fun c hc => this c (List.mem_reverse.2 hc)
    simp [this] at hnm
  | some out =>
    obtain ⟨hv, hl, hm⟩ := incRev_some_spec hnd h2 hmemr hrec
    have hmo : ∀ c ∈ out.reverse, c ∈ alpha := fun c hc => hm c (List.mem_reverse.1 hc)
    have heq : incrementSymbols alpha s = out.reverse := by
      simp [incrementSymbols, hrec]
    rw [heq, decodeValue_eq_valLE_reverse hmo, decodeValue_eq_valLE_reverse hmem,
      List.reverse_reverse, hv]
    refine ⟨by push_cast; ring, by simpa using hl, hmo⟩

theorem incrementSymbols_eq_replicate_iff {alpha : List Char} (hnd : alpha.Nodup)
    (h2 : 2 ≤ alpha.length) {s : List Char} (hmem : ∀ c ∈ s, c ∈ alpha) :
    (incrementSymbols alpha s = List.replicate s.length (alpha.getD 0 '?') ↔
      isMaxValue alpha s = true) := by
  have hmemr : ∀ c ∈ s.reverse, c ∈ alpha := fun c hc => hmem c (List.mem_reverse.1 hc)
  constructor
  · intro h
    by_contra hnm
    have hnm' : isMaxValue alpha s = false := by
      cases hh : isMaxValue alpha s with
      | true => exact absurd hh hnm
      | false => rfl
    obtain ⟨hv, hl, hm⟩ := incrementSymbols_spec_not_max hnd h2 hmem hnm'
    rw [h] at hv
    have hz : decodeValue alpha (List.replicate s.length (alpha.getD 0 '?')) = 0 := by
      have hrm : ∀ c ∈ List.replicate s.length (alpha.getD 0 '?'), c ∈ alpha := by
        intro c hc
        rw [List.eq_of_mem_replicate hc]
        exact getD_mem_of_lt (by omega)
      rw [decodeValue_eq_valLE_reverse hrm, List.reverse_replicate,
        valLE_replicate_zero hnd h2, Nat.cast_zero]
    rw [hz] at hv
    have : (0 : ℤ) ≤ decodeValue alpha s := by
      rw [decodeValue_eq_valLE_reverse hmem]; positivity
    omega
  · intro h
    simp [incrementSymbols, incRev_eq_none_of_max hnd h2 hmem h]

/-- C3: the cascade applied to a trailing-fields string returns the
base-N successor (decoded value exactly one greater, length preserved)
for every input that is not all-maximum, and rolls every position over
to the all-minimum overflow sentinel exactly when every symbol is the
maximum alphabet symbol; in particular for alphabet "01":
"0000" → "0001", "0001" → "0010", "0111" → "1000", and "1111" rolls
over to the overflow sentinel "0000". -/
theorem C3_cascade_successor {alpha : List Char} (hnd : alpha.Nodup)
    (h2 : 2 ≤ alpha.length) {s : List Char} (hmem : ∀ c ∈ s, c ∈ alpha) :
    (isMaxValue alpha s = false →
      decodeValue alpha (incrementSymbols alpha s) = decodeValue alpha s + 1 ∧
        (incrementSymbols alpha s).length = s.length) ∧
    (incrementSymbols alpha s = List.replicate s.length (alpha.getD 0 '?') ↔
      isMaxValue alpha s = true) ∧
    incrementSymbols ['0', '1'] ['0', '0', '0', '0'] = ['0', '0', '0', '1'] ∧
    incrementSymbols ['0', '1'] ['0', '0', '0', '1'] = ['0', '0', '1', '0'] ∧
    incrementSymbols ['0', '1'] ['0', '1', '1', '1'] = ['1', '0', '0', '0'] ∧
    incrementSymbols ['0', '1'] ['1', '1', '1', '1'] = ['0', '0', '0', '0'] := by
  refine ⟨fun hnm => ?_, incrementSymbols_eq_replicate_iff hnd h2 hmem,
    by decide, by decide, by decide, by decide⟩
  obtain ⟨hv, hl, _⟩ := incrementSymbols_spec_not_max hnd h2 hmem hnm
  exact ⟨hv, hl⟩

/-- Witness for C3 at the concrete alphabet "01" and input "010". -/
theorem C3_cascade_successor_witness :
    (['0', '1'] : List Char).Nodup ∧ 2 ≤ (['0', '1'] : List Char).length ∧
      decodeValue ['0', '1'] (incrementSymbols ['0', '1'] ['0', '1', '0']) =
        decodeValue ['0', '1'] ['0', '1', '0'] + 1 :=
  ⟨by decide, by decide,
    ((C3_cascade_successor (by decide) (by decide) (by decide)).1 (by decide)).1⟩

theorem natToSymsAux_eq_digits {alpha : List Char} (h2 : 2 ≤ alpha.length) :
    ∀ fuel n, n ≤ fuel →
      natToSymsAux alpha fuel n =
        ((Nat.digits alpha.length n).reverse).map (fun d => alpha.getD d '?') := by
  intro fuel
  induction fuel with
  | zero =>
    intro n hn
    have : n = 0 := by omega
    subst this
    simp [natToSymsAux]
  | succ fuel ih =>
    intro n hn
    by_cases hz : n = 0
    · subst hz; simp [natToSymsAux]
    · have hdig : Nat.digits alpha.length n =
          n % alpha.length :: Nat.digits alpha.length (n / alpha.length) :=
        Nat.digits_def' (by omega) (by omega)
      have hrec : n / alpha.length ≤ fuel := by
        have h1 : n / alpha.length ≤ n / 2 := Nat.div_le_div_left h2 (by norm_num)
        omega
      rw [natToSymsAux, if_neg hz, ih _ hrec, hdig]
      simp only [List.reverse_cons, List.map_append, List.map_singleton]

theorem valLE_map_getD {alpha : List Char} (hnd : alpha.Nodup) :
    ∀ {ds : List ℕ}, (∀ d ∈ ds, d < alpha.length) →
      valLE alpha (ds.map (fun d => alpha.getD d '?')) = Nat.ofDigits alpha.length ds := by
  intro ds
  induction ds with
  | nil => intro _; simp [valLE, Nat.ofDigits_nil]
  | cons d tl ih =>
    intro hlt
    have hd : d < alpha.length := hlt d (by simp)
    rw [List.map_cons, valLE, indexOf_getD_of_lt hnd hd,
      ih (fun x hx => hlt x (by simp [hx])), Nat.ofDigits_cons]

theorem mem_natToSymsAux {alpha : List Char} (h2 : 2 ≤ alpha.length) (n : ℕ) :
    ∀ c ∈ natToSymsAux alpha n n, c ∈ alpha := by
  rw [natToSymsAux_eq_digits h2 n n le_rfl]
  intro c hc
  obtain ⟨d, hd, hdc⟩ := List.mem_map.1 hc
  have : d < alpha.length :=
    Nat.digits_lt_base (by omega) (List.mem_reverse.1 hd)
  rw [← hdc]
  exact getD_mem_of_lt this

theorem decodeValue_natToSyms {alpha : List Char} (hnd : alpha.Nodup)
    (h2 : 2 ≤ alpha.length) (n : ℕ) :
    decodeValue alpha (natToSymsAux alpha n n) = n := by
  have hmem := mem_natToSymsAux h2 n
  rw [decodeValue_eq_valLE_reverse hmem, natToSymsAux_eq_digits h2 n n le_rfl,
    ← List.map_reverse, List.reverse_reverse,
    valLE_map_getD hnd (fun d hd => Nat.digits_lt_base (by omega) hd),
    Nat.ofDigits_digits]

theorem natToSymsAux_length {alpha : List Char} (h2 : 2 ≤ alpha.length)
    {n L : ℕ} (h : n < alpha.length ^ L) :
    (natToSymsAux alpha n n).length ≤ L := by
  rw [natToSymsAux_eq_digits h2 n n le_rfl]
  simp only [List.length_map, List.length_reverse]
  by_cases hz : n = 0
  · subst hz; simp
  · rw [Nat.digits_len _ _ (by omega) hz]
    have := (Nat.lt_pow_iff_log_lt (by omega : 1 < alpha.length) hz).1 h
    omega

theorem valLE_append_replicate_zero {alpha : List Char} (hnd : alpha.Nodup)
    (h2 : 2 ≤ alpha.length) (x : List Char) (k : ℕ) :
    valLE alpha (x ++ List.replicate k (alpha.getD 0 '?')) = valLE alpha x := by
  induction x with
  | nil =>
    rw [List.nil_append, valLE_replicate_zero hnd h2]
    rfl
  | cons c rest ih => simp only [List.cons_append, valLE, List.append_eq, ih]

/-- Over the alphabet, `encodeTimestamp` produces exactly the floored
timestamp as its decoded value (leading padding contributes nothing). -/
theorem decodeValue_encodeTimestamp (g : Gen) (hnd : g.alphabet.Nodup)
    (h2 : 2 ≤ g.base) (t : ℚ) :
    decodeValue g.alphabet (encodeTimestamp g t) = ((Int.floor t).toNat : ℤ) := by
  unfold encodeTimestamp
  simp only [alpha0]
  set m : ℕ := (Int.floor t).toNat with hm
  by_cases hz : m = 0
  · rw [if_pos hz, hz]
    have hrm : ∀ c ∈ List.replicate g.timestampLength (g.alphabet.getD 0 '?'),
        c ∈ g.alphabet := by
      intro c hc
      rw [List.eq_of_mem_replicate hc]
      exact getD_mem_of_lt (by unfold Gen.base at h2; omega)
    rw [decodeValue_eq_valLE_reverse hrm, List.reverse_replicate, valLE_replicate_zero hnd h2]
  · rw [if_neg hz]
    have hsm := @mem_natToSymsAux g.alphabet h2 m
    have hmem : ∀ c ∈ List.replicate (g.timestampLength - (natToSymsAux g.alphabet m m).length)
        (g.alphabet.getD 0 '?') ++ natToSymsAux g.alphabet m m, c ∈ g.alphabet := by
      intro c hc
      rcases List.mem_append.1 hc with h1 | h1
      · rw [List.eq_of_mem_replicate h1]
        exact getD_mem_of_lt (by unfold Gen.base at h2; omega)
      · exact hsm c h1
    rw [decodeValue_eq_valLE_reverse hmem, List.reverse_append, List.reverse_replicate,
      valLE_append_replicate_zero hnd h2, ← decodeValue_eq_valLE_reverse hsm,
      decodeValue_natToSyms hnd h2]

theorem encodeTimestamp_length (g : Gen) (h2 : 2 ≤ g.base) (t : ℚ)
    (hv : (Int.floor t).toNat < g.base ^ g.timestampLength) :
    (encodeTimestamp g t).length = g.timestampLength := by
  unfold encodeTimestamp
  set m : ℕ := (Int.floor t).toNat with hm
  by_cases hz : m = 0
  · rw [if_pos hz]; simp
  · rw [if_neg hz]
    have := @natToSymsAux_length g.alphabet h2 m g.timestampLength hv
    simp only [List.length_append, List.length_replicate]
    omega

theorem mem_encodeTimestamp (g : Gen) (h2 : 2 ≤ g.base) (t : ℚ) :
    ∀ c ∈ encodeTimestamp g t, c ∈ g.alphabet := by
  unfold encodeTimestamp
  intro c hc
  by_cases hz : (Int.floor t).toNat = 0
  · rw [if_pos hz] at hc
    rw [List.eq_of_mem_replicate hc]
    exact getD_mem_of_lt (by unfold Gen.base at h2; omega)
  · rw [if_neg hz] at hc
    rcases List.mem_append.1 hc with h1 | h1
    · rw [List.eq_of_mem_replicate h1]
      exact getD_mem_of_lt (by unfold Gen.base at h2; omega)
    · exact mem_natToSymsAux h2 _ c h1

theorem decode_ok_of_valid (g : Gen) {id : List Char} (h0 : 0 < g.totalLength)
    (hlen : id.length = g.totalLength) (hmem : ∀ c ∈ id, c ∈ g.alphabet) :
    decode g id =
      .ok { timestampMs :=
              g.startMs + (decodeValue g.alphabet (id.take g.timestampLength) : ℚ) * g.levelMs
          , chronoPart := (id.drop g.timestampLength).take g.chronoLength
          , machineId := id.drop (g.timestampLength + g.chronoLength) } := by
  have hne : ¬(id.length = 0 ∨ id.length ≠ g.totalLength) := by omega
  have hany : (id.any fun c => !(g.alphabet.contains c)) = false := by
    rw [List.any_eq_false]
    intro c hc
    simp [hmem c hc]
  rw [decode, if_neg hne, hany]
  rfl

/-- C6: base-N decoding is the inverse of fixed-width base-N encoding:
every bucket index representable in the configured timestamp width is
recovered exactly by decoding its encoding, the encoded field has
exactly the configured width, and decoding a full identifier built at
that bucket yields the instant epoch start + bucket × granularity. -/
theorem C6_timestamp_roundtrip (g : Gen) (hnd : g.alphabet.Nodup) (h2 : 2 ≤ g.base)
    (v : ℕ) (hv : v < g.base ^ g.timestampLength) :
    decodeValue g.alphabet (encodeTimestamp g (v : ℚ)) = (v : ℤ) ∧
    (encodeTimestamp g (v : ℚ)).length = g.timestampLength ∧
    (∀ rest : List Char, (encodeTimestamp g (v : ℚ) ++ rest).length = g.totalLength →
      (∀ c ∈ rest, c ∈ g.alphabet) → 0 < g.totalLength →
      decode g (encodeTimestamp g (v : ℚ) ++ rest) =
        .ok { timestampMs := g.startMs + (v : ℚ) * g.levelMs
            , chronoPart := rest.take g.chronoLength
            , machineId := rest.drop g.chronoLength }) := by
  have hfl : (Int.floor ((v : ℚ))).toNat = v := by
    rw [Int.floor_natCast]
    exact Int.toNat_natCast v
  have hval : decodeValue g.alphabet (encodeTimestamp g (v : ℚ)) = (v : ℤ) := by
    rw [decodeValue_encodeTimestamp g hnd h2, hfl]
  have hlen : (encodeTimestamp g (v : ℚ)).length = g.timestampLength := by
    apply encodeTimestamp_length g h2
    rw [hfl]; exact hv
  refine ⟨hval, hlen, ?_⟩
  intro rest hrl hrm h0
  have hmem : ∀ c ∈ encodeTimestamp g (v : ℚ) ++ rest, c ∈ g.alphabet := by
    intro c hc
    rcases List.mem_append.1 hc with h1 | h1
    · exact mem_encodeTimestamp g h2 _ c h1
    · exact hrm c h1
  rw [decode_ok_of_valid g h0 hrl hmem]
  have htake : (encodeTimestamp g (v : ℚ) ++ rest).take g.timestampLength =
      encodeTimestamp g (v : ℚ) := List.take_left' hlen
  have hdrop : (encodeTimestamp g (v : ℚ) ++ rest).drop g.timestampLength = rest :=
    List.drop_left' hlen
  have hdrop2 : (encodeTimestamp g (v : ℚ) ++ rest).drop
      (g.timestampLength + g.chronoLength) = rest.drop g.chronoLength := by
    have h3 := List.drop_drop g.chronoLength g.timestampLength (encodeTimestamp g (v : ℚ) ++ rest)
    rw [hdrop] at h3
    exact h3.symm
  rw [htake, hdrop, hdrop2, hval]
  norm_cast

/-- Witness for C6 at the binary generator and bucket index 5. -/
theorem C6_timestamp_roundtrip_witness :
    (gBin.alphabet.Nodup ∧ 2 ≤ gBin.base ∧ 5 < gBin.base ^ gBin.timestampLength) ∧
      decodeValue gBin.alphabet (encodeTimestamp gBin ((5 : ℕ) : ℚ)) = ((5 : ℕ) : ℤ) :=
  ⟨⟨by decide, by decide, by decide⟩,
    (C6_timestamp_roundtrip gBin (by decide) (by decide) 5 (by decide)).1⟩

/-- C5: `decode` fails exactly when the input length differs from the
configured total length or some symbol is outside the alphabet; on any
input of the right length over the alphabet it succeeds and returns
epoch start + decoded bucket × granularity together with the chrono and
machine-id substrings at their configured offsets — no range check of
the timestamp value is performed. -/
theorem C5_decode_validation (g : Gen) (h0 : 0 < g.totalLength) (id : List Char) :
    ((∃ r, decode g id = .ok r) ↔
      id.length = g.totalLength ∧ ∀ c ∈ id, c ∈ g.alphabet) ∧
    (id.length = g.totalLength → (∀ c ∈ id, c ∈ g.alphabet) →
      decode g id = .ok
        { timestampMs :=
            g.startMs + (decodeValue g.alphabet (id.take g.timestampLength) : ℚ) * g.levelMs
        , chronoPart := (id.drop g.timestampLength).take g.chronoLength
        , machineId := id.drop (g.timestampLength + g.chronoLength) }) := by
  refine ⟨⟨?_, ?_⟩, fun hl hm => decode_ok_of_valid g h0 hl hm⟩
  · rintro ⟨r, hr⟩
    by_cases hl : id.length = g.totalLength
    · refine ⟨hl, ?_⟩
      intro c hc
      by_contra hcm
      have hany : (id.any fun c => !(g.alphabet.contains c)) = true := by
        rw [List.any_eq_true]
        refine ⟨c, hc, ?_⟩
        simp [hcm]
      rw [decode, if_neg (by omega), hany] at hr
      simp at hr
    · exfalso
      rw [decode, if_pos (by omega)] at hr
      simp at hr
  · rintro ⟨hl, hm⟩
    exact ⟨_, decode_ok_of_valid g h0 hl hm⟩

/-- Witness for C5: an all-maximum identifier decodes without any range
check (bucket 7 lies beyond the configured `maxTimestamp` 5). -/
theorem C5_decode_validation_witness :
    0 < gBin.totalLength ∧
      decode gBin ['1', '1', '1', '1', '1', '1'] =
        .ok { timestampMs := 7, chronoPart := ['1'], machineId := ['1', '1'] } := by
  refine ⟨by decide, ?_⟩
  have h := (C5_decode_validation gBin (by decide) ['1', '1', '1', '1', '1', '1']).2
    (by decide) (by decide)
  rw [h]
  have hv : decodeValue gBin.alphabet
      ((['1', '1', '1', '1', '1', '1'] : List Char).take gBin.timestampLength) = 7 := by
    decide
  rw [hv]
  have hc : ((['1', '1', '1', '1', '1', '1'] : List Char).drop gBin.timestampLength).take
      gBin.chronoLength = ['1'] := by decide
  have hm : (['1', '1', '1', '1', '1', '1'] : List Char).drop
      (gBin.timestampLength + gBin.chronoLength) = ['1', '1'] := by decide
  rw [hc, hm]
  norm_num [gBin]

theorem rat_le_pow_iff_ceil_toNat_le {base : ℕ} (hb : 2 ≤ base) {t : ℚ} (ht : 1 ≤ t)
    (w : ℕ) : t ≤ (base : ℚ) ^ w ↔ (Int.ceil t).toNat ≤ base ^ w := by
  rw [Int.toNat_le, Int.ceil_le]
  push_cast
  rfl

theorem calculateRequiredLength_min {base : ℕ} (hb : 2 ≤ base) {t : ℚ} (ht : 1 ≤ t) :
    t ≤ (base : ℚ) ^ calculateRequiredLength base t ∧
      ∀ w, t ≤ (base : ℚ) ^ w → calculateRequiredLength base t ≤ w := by
  have hb1 : 1 < base := by omega
  constructor
  · rw [rat_le_pow_iff_ceil_toNat_le hb ht]
    exact (Nat.le_pow_iff_clog_le hb1).2 le_rfl
  · intro w hw
    exact (Nat.le_pow_iff_clog_le hb1).1 ((rat_le_pow_iff_ceil_toNat_le hb ht w).1 hw)

theorem clog_two_five : Nat.clog 2 5 = 3 := by
  have h1 : Nat.clog 2 5 ≤ 3 := (Nat.le_pow_iff_clog_le (by norm_num)).1 (by norm_num)
  have h2 : 2 < Nat.clog 2 5 := (Nat.pow_lt_iff_lt_clog (by norm_num)).1 (by norm_num)
  omega

/-- C8 counterexample: with alphabet size 2 and exactly 8 time-bucket
units between epoch start and end, the code resolves the width to 3,
whose capacity 2³ = 8 does not strictly exceed the unit count, while
the least width whose capacity strictly exceeds 8 is 4. -/
theorem C8_counterexample :
    calculateRequiredLength 2 (8 : ℚ) = 3 ∧ specTimestampWidth 2 8 = 4 ∧
      ¬ (8 : ℚ) < (2 : ℚ) ^ calculateRequiredLength 2 (8 : ℚ) := by
  have hceil : (Int.ceil ((8 : ℚ))).toNat = 8 := by
    have h8 : Int.ceil ((8 : ℚ)) = 8 := by norm_num
    rw [h8]
    rfl
  have hclog : Nat.clog 2 8 = 3 := by
    have h1 : Nat.clog 2 8 ≤ 3 := (Nat.le_pow_iff_clog_le (by norm_num)).1 (by norm_num)
    have h2 : 2 < Nat.clog 2 8 := (Nat.pow_lt_iff_lt_clog (by norm_num)).1 (by norm_num)
    omega
  have hclog9 : Nat.clog 2 9 = 4 := by
    have h1 : Nat.clog 2 9 ≤ 4 := (Nat.le_pow_iff_clog_le (by norm_num)).1 (by norm_num)
    have h2 : 3 < Nat.clog 2 9 := (Nat.pow_lt_iff_lt_clog (by norm_num)).1 (by norm_num)
    omega
  have h1 : calculateRequiredLength 2 (8 : ℚ) = 3 := by
    rw [calculateRequiredLength, hceil, hclog]
  refine ⟨h1, ?_, ?_⟩
  · rw [specTimestampWidth]
    exact hclog9
  · rw [h1]
    norm_num

/-- C8 (amended): the resolved timestamp width is the minimum number of
base-N digits `w` such that `alphabet_size ^ w` is at least — rather
than strictly exceeds — the number of time-bucket units between epoch
start and end (the two notions differ exactly when the unit count is an
exact power of the alphabet size; the Go digit-count sizing does
strictly exceed). -/
theorem C8_width_minimal (base : ℕ) (hb : 2 ≤ base) (t : ℚ) (ht : 1 ≤ t) :
    t ≤ (base : ℚ) ^ calculateRequiredLength base t ∧
      ∀ w, t ≤ (base : ℚ) ^ w → calculateRequiredLength base t ≤ w :=
  calculateRequiredLength_min hb ht

/-- Witness for C8 (amended) at base 2, 5 units. -/
theorem C8_width_minimal_witness :
    (2 ≤ 2 ∧ (1 : ℚ) ≤ 5) ∧ (5 : ℚ) ≤ (2 : ℚ) ^ calculateRequiredLength 2 5 :=
  ⟨⟨le_rfl, by norm_num⟩, (C8_width_minimal 2 le_rfl 5 (by norm_num)).1⟩

/-- C7 counterexample: a constructor-consistent configuration (the
resolved `timestampLength` is exactly `calculateRequiredLength base
maxTimestamp` as in the constructor, and `maxTimestamp` is the bucket
count to the epoch end, here 5) in which `generate` fails with
TimestampExhausted at bucket 6 although 6 is strictly below
`alphabet_size ^ timestampLength = 8`, refuting "fails exactly when the
bucket reaches `alphabet_size ^ timestamp_width`". -/
theorem C7_counterexample :
    gBin.timestampLength = calculateRequiredLength gBin.base gBin.maxTimestamp ∧
    (0 : ℚ) ≤ 6 ∧ (6 : ℚ) < (gBin.base : ℚ) ^ gBin.timestampLength ∧
    generate gBin (initState gBin) 6 [] = (.error .timestampExhausted, initState gBin) := by
  refine ⟨?_, by norm_num, ?_, by decide⟩
  · have hceil : (Int.ceil ((5 : ℚ))).toNat = 5 := by
      have h5 : Int.ceil ((5 : ℚ)) = 5 := by norm_num
      rw [h5]
      rfl
    rw [calculateRequiredLength]
    show (3 : ℕ) = Nat.clog 2 (Int.ceil ((5 : ℚ))).toNat
    rw [hceil, clog_two_five]
  · show (6 : ℚ) < ((2 : ℕ) : ℚ) ^ (3 : ℕ)
    norm_num

/-- C7 (amended): `generate` fails with TimestampExhausted exactly when
the current time bucket reaches the configured `maxTimestamp` — the
bucket count between epoch start and the sizing epoch end, which is at
most (but in general less than) `alphabet_size ^ timestampLength`; in
particular, whenever the supported range is not capped by the JavaScript
maximum date, every instant at or beyond `getMaxDate` fails. -/
theorem C7_timestamp_exhausted (g : Gen) (st : GenState) (timespan : ℚ)
    (r : List Char) (h0 : 0 ≤ timespan) :
    ((generate g st timespan r).1 = .error .timestampExhausted ↔
      g.maxTimestamp ≤ timespan) ∧
    (∀ nowMs, 0 < g.levelMs → 0 ≤ g.maxTimestamp →
      g.startMs + g.maxTimestamp * g.levelMs ≤ 8640000000000000 →
      getMaxDateMs g ≤ nowMs →
      (generateNow g st nowMs r).1 = .error .timestampExhausted) := by
  have hiff : ∀ ts : ℚ, 0 ≤ ts →
      ((generate g st ts r).1 = .error .timestampExhausted ↔ g.maxTimestamp ≤ ts) := by
    intro ts hts
    unfold generate
    rw [if_neg (not_lt.2 hts)]
    by_cases hmax : g.maxTimestamp ≤ ts
    · rw [if_pos hmax]
      simp [hmax]
    · rw [if_neg hmax]
      by_cases hsame : ts = st.lastTimeSpan
      · rw [if_pos hsame]
        by_cases hov : incrementStringPart g st.lastChronoPart = minChronoPart g
        · rw [if_pos hov]
          by_cases hov2 : incrementStringPart g
              (st.lastId.drop (g.timestampLength + g.chronoLength)) = minMachineIdPart g
          · rw [if_pos hov2]
            simp [hmax]
          · rw [if_neg hov2]
            simp [hmax]
        · rw [if_neg hov]
          simp [hmax]
      · rw [if_neg hsame]
        simp [hmax]
  refine ⟨hiff timespan h0, ?_⟩
  intro nowMs hl hm hcap hnow
  have hmd : getMaxDateMs g = g.startMs + g.maxTimestamp * g.levelMs :=
    min_eq_left hcap
  rw [hmd] at hnow
  have hts : g.maxTimestamp ≤ getTimespan g nowMs := by
    rw [getTimespan, le_div_iff₀ hl]
    linarith
  have hts0 : 0 ≤ getTimespan g nowMs := le_trans hm hts
  rw [generateNow]
  exact (hiff _ hts0).2 hts

/-- Witness for C7 (amended): the binary generator refuses bucket 10. -/
theorem C7_timestamp_exhausted_witness :
    (0 : ℚ) ≤ 10 ∧ (generate gBin (initState gBin) 10 []).1 = .error .timestampExhausted :=
  ⟨by norm_num,
    ((C7_timestamp_exhausted gBin (initState gBin) 10 [] (by norm_num)).1).2
      (by norm_num [gBin])⟩

set_option maxRecDepth 10000 in
theorem getMask_spec : ∀ s, s < 256 → 2 ≤ s →
    (s - 1 ≤ getMask s ∧ ∀ i, i < s → getMask s &&& i = i) := by decide

theorem clog_two_two : Nat.clog 2 2 = 1 := by
  have h1 : Nat.clog 2 2 ≤ 1 := (Nat.le_pow_iff_clog_le (by norm_num)).1 (by norm_num)
  have h2 : 0 < Nat.clog 2 2 := (Nat.pow_lt_iff_lt_clog (by norm_num)).1 (by norm_num)
  omega

/-- C9 counterexample: at alphabet "01" (size 2) the TS pool maps byte 1
by modulo (size − 1) to index 0 — not to `1 &&& specMask 2 = 1` as the
claimed mask-and-reject scheme would, so the maximum symbol is
unreachable there — and the Go mask at size 2 is 3, not the claimed
"smallest power of two ≥ alphabet size, minus one" (= 1). -/
theorem C9_counterexample :
    fillCharPoolIndex ['0', '1'] 1 = 0 ∧ specMask 2 = 1 ∧ 1 &&& specMask 2 = 1 ∧
      fillCharPoolIndex ['0', '1'] 1 ≠ 1 &&& specMask 2 ∧
      getMask 2 = 3 ∧ getMask 2 ≠ specMask 2 := by
  have hs : specMask 2 = 1 := by
    rw [specMask, clog_two_two]
    decide
  refine ⟨by decide, hs, ?_, ?_, by decide, ?_⟩
  · rw [hs]; decide
  · rw [hs]; decide
  · rw [hs]; decide

/-- C9 (amended): the in-repository TS pool maps each byte by modulo
(alphabet size − 1), so the produced index is always below size − 1
(the maximum symbol is never produced and nothing is ever rejected);
the Go pool masks each byte with `getMask` — the smallest of the masks
3, 7, 15, …, 255 that is ≥ alphabet size − 1 — and rejects out-of-range
indices, so byte `i` is accepted and yields exactly index `i` for every
`i < size` (every symbol, the maximum included, is producible) and every
accepted index is within the alphabet. -/
theorem C9_pool_behaviour (alpha : List Char) (h2 : 2 ≤ alpha.length)
    (hle : alpha.length ≤ 255) :
    (∀ b : ℕ, fillCharPoolIndex alpha b < alpha.length - 1) ∧
    (∀ i, i < alpha.length → getRandomCharIndex alpha.length i = some i) ∧
    (∀ b j, getRandomCharIndex alpha.length b = some j → j < alpha.length) := by
  obtain ⟨hmaskge, hmaskand⟩ := getMask_spec alpha.length (by omega) h2
  refine ⟨?_, ?_, ?_⟩
  · intro b
    exact Nat.mod_lt _ (by omega)
  · intro i hi
    rw [getRandomCharIndex]
    simp only [hmaskand i hi]
    rw [if_neg (by omega)]
  · intro b j hj
    rw [getRandomCharIndex] at hj
    by_cases hbad : alpha.length ≤ getMask alpha.length &&& b
    · rw [if_pos hbad] at hj
      exact absurd hj (by simp)
    · rw [if_neg hbad] at hj
      have : getMask alpha.length &&& b = j := Option.some.inj hj
      omega

/-- Witness for C9 (amended): at alphabet "01", byte 1 is accepted by
the Go pool and yields the maximum index 1. -/
theorem C9_pool_behaviour_witness :
    (2 ≤ (['0', '1'] : List Char).length ∧ (['0', '1'] : List Char).length ≤ 255) ∧
      getRandomCharIndex (['0', '1'] : List Char).length 1 = some 1 :=
  ⟨⟨by decide, by decide⟩,
    (C9_pool_behaviour ['0', '1'] (by decide) (by decide)).2.1 1 (by decide)⟩

/-- C1: evaluating `generate` on three successive calls in one time
bucket: after the chrono field overflows, the third identifier "001001"
is lexicographically smaller than the second identifier "001100" —
`generate` is not non-decreasing. -/
theorem C1_monotonicity_violation :
    generate gBin (initState gBin) 1 ['0', '0'] =
        (.ok ['0', '0', '1', '0', '0', '0'], stA) ∧
    generate gBin stA 1 ['0', '0'] = (.ok ['0', '0', '1', '1', '0', '0'], stB) ∧
    generate gBin stB 1 ['0', '0'] = (.ok ['0', '0', '1', '0', '0', '1'], stC) ∧
    List.Lex (· < ·) (['0', '0', '1', '0', '0', '1'] : List Char)
      ['0', '0', '1', '1', '0', '0'] := by
  exact ⟨by decide, by decide, by decide, by decide⟩

/-- C2: at the chrono-overflow call the code resets the chrono field to
its minimum and cascades the machine-id suffix alone, returning
"001001"; cascading the combined chrono+suffix trailing string "100" of
the previous identifier — as the claim prescribes — would yield
"001" ++ "101" = "001101" instead. -/
theorem C2_combined_cascade_not_used :
    generate gBin stB 1 ['0', '0'] = (.ok ['0', '0', '1', '0', '0', '1'], stC) ∧
    incrementSymbols gBin.alphabet (stB.lastId.drop gBin.timestampLength) =
      ['1', '0', '1'] ∧
    (['0', '0', '1', '0', '0', '1'] : List Char) ≠
      stB.lastId.take gBin.timestampLength ++ ['1', '0', '1'] :=
  ⟨by decide, by decide, by decide⟩

theorem incRev_some_length {alpha : List Char} :
    ∀ {r out : List Char}, incRev alpha r = some out → out.length = r.length := by
  intro r
  induction r with
  | nil => intro out h; simp [incRev] at h
  | cons c rest ih =>
    intro out h
    rw [incRev] at h
    by_cases hlt : jsIndexOf alpha c < (alpha.length : ℤ) - 1
    · rw [if_pos hlt] at h
      rw [← Option.some.inj h]
      simp
    · rw [if_neg hlt] at h
      cases hrec : incRev alpha rest with
      | none => rw [hrec] at h; exact absurd h (by simp)
      | some out' =>
        rw [hrec] at h
        rw [← Option.some.inj h]
        simp [ih hrec]

theorem incrementStringPart_length_of_success (g : Gen) {v : List Char}
    (hv : v.length = g.chronoLength)
    (hsucc : incrementStringPart g v ≠ minChronoPart g) :
    (incrementStringPart g v).length = g.chronoLength := by
  cases hrec : incRev g.alphabet v.reverse with
  | none =>
    exfalso
    apply hsucc
    rw [incrementStringPart, hrec, if_pos hv]
  | some out =>
    rw [incrementStringPart, hrec]
    have := incRev_some_length hrec
    simp only [List.length_reverse] at this ⊢
    omega

/-- C4: a same-bucket call whose chrono cascade succeeds returns an
identifier made of the unchanged timestamp field, the new chrono field,
and the machine-id suffix of the previous identifier unchanged — the
suffix is not redrawn or otherwise modified. -/
theorem C4_suffix_unchanged (g : Gen) (st : GenState) (timespan : ℚ) (r : List Char)
    (h0 : 0 ≤ timespan) (hlt : timespan < g.maxTimestamp)
    (hsame : timespan = st.lastTimeSpan)
    (hcl : st.lastChronoPart.length = g.chronoLength)
    (hsucc : incrementStringPart g st.lastChronoPart ≠ minChronoPart g)
    (henc : st.lastId.take g.timestampLength = encodeTimestamp g st.lastTimeSpan)
    (hencl : (encodeTimestamp g timespan).length = g.timestampLength) :
    ∃ st' : GenState, generate g st timespan r = (.ok st'.lastId, st') ∧
      st'.lastId.take g.timestampLength = st.lastId.take g.timestampLength ∧
      (st'.lastId.drop g.timestampLength).take g.chronoLength =
        incrementStringPart g st.lastChronoPart ∧
      st'.lastId.drop (g.timestampLength + g.chronoLength) =
        st.lastId.drop (g.timestampLength + g.chronoLength) := by
  have hchl : (incrementStringPart g st.lastChronoPart).length = g.chronoLength :=
    incrementStringPart_length_of_success g hcl hsucc
  set newChrono := incrementStringPart g st.lastChronoPart with hnc
  set suffix := st.lastId.drop (g.timestampLength + g.chronoLength) with hsf
  set id := encodeTimestamp g timespan ++ newChrono ++ suffix with hid
  refine ⟨{ st with lastChronoPart := newChrono, lastId := id }, ?_, ?_, ?_, ?_⟩
  · show generate g st timespan r = (.ok id, _)
    rw [generate, if_neg (not_lt.2 h0), if_neg (not_le.2 hlt), if_pos hsame,
      if_neg hsucc]
  · show id.take g.timestampLength = st.lastId.take g.timestampLength
    rw [hid, List.append_assoc, List.take_left' hencl, henc, hsame]
  · show (id.drop g.timestampLength).take g.chronoLength = newChrono
    rw [hid, List.append_assoc, List.drop_left' hencl, List.take_left' hchl]
  · show id.drop (g.timestampLength + g.chronoLength) = suffix
    rw [hid, List.append_assoc]
    have h3 := List.drop_drop g.chronoLength g.timestampLength
      (encodeTimestamp g timespan ++ (newChrono ++ suffix))
    rw [List.drop_left' hencl, List.drop_left' hchl] at h3
    exact h3.symm

/-- Witness for C4 at the binary generator, second call of the trace. -/
theorem C4_suffix_unchanged_witness :
    ((0 : ℚ) ≤ 1 ∧ (1 : ℚ) < gBin.maxTimestamp ∧ (1 : ℚ) = stA.lastTimeSpan) ∧
      (∃ st' : GenState, generate gBin stA 1 ['0', '0'] = (.ok st'.lastId, st') ∧
        st'.lastId.take gBin.timestampLength = stA.lastId.take gBin.timestampLength ∧
        (st'.lastId.drop gBin.timestampLength).take gBin.chronoLength =
          incrementStringPart gBin stA.lastChronoPart ∧
        st'.lastId.drop (gBin.timestampLength + gBin.chronoLength) =
          stA.lastId.drop (gBin.timestampLength + gBin.chronoLength)) :=
  ⟨⟨by norm_num, by norm_num [gBin], by decide⟩,
    C4_suffix_unchanged gBin stA 1 ['0', '0'] (by norm_num) (by norm_num [gBin])
      (by decide) (by decide) (by decide) (by decide) (by decide)⟩

theorem slice3_take {t : ℕ} {a b c : List Char} (ha : a.length = t) :
    (a ++ (b ++ c)).take t = a := List.take_left' ha

theorem slice3_mid {t cl : ℕ} {a b c : List Char} (ha : a.length = t)
    (hb : b.length = cl) : ((a ++ (b ++ c)).drop t).take cl = b := by
  rw [List.drop_left' ha, List.take_left' hb]

theorem slice3_suffix {t cl : ℕ} {a b c : List Char} (ha : a.length = t)
    (hb : b.length = cl) : (a ++ (b ++ c)).drop (t + cl) = c := by
  have h3 := List.drop_drop cl t (a ++ (b ++ c))
  rw [List.drop_left' ha, List.drop_left' hb] at h3
  exact h3.symm

theorem incrementStringPart_eq_incrementSymbols (g : Gen) {v : List Char}
    (h : incRev g.alphabet v.reverse ≠ none) :
    incrementStringPart g v = incrementSymbols g.alphabet v := by
  cases hrec : incRev g.alphabet v.reverse with
  | none => exact absurd hrec h
  | some out => rw [incrementStringPart, incrementSymbols, hrec]

theorem incrementStringPart_spec_not_max (g : Gen) (hnd : g.alphabet.Nodup)
    (h2 : 2 ≤ g.base) {v : List Char} (hmem : ∀ c ∈ v, c ∈ g.alphabet)
    (hnm : isMaxValue g.alphabet v = false) :
    decodeValue g.alphabet (incrementStringPart g v) =
      decodeValue g.alphabet v + 1 ∧
    (incrementStringPart g v).length = v.length ∧
    (∀ c ∈ incrementStringPart g v, c ∈ g.alphabet) := by
  have hne : incRev g.alphabet v.reverse ≠ none := by
    intro hnone
    have hall := (incRev_none_iff hnd h2
      (fun c hc => hmem c (List.mem_reverse.1 hc))).1 hnone
    have : isMaxValue g.alphabet v = true :=
      isMaxValue_iff.2 (fun c hc => hall c (List.mem_reverse.2 hc))
    simp [this] at hnm
  rw [incrementStringPart_eq_incrementSymbols g hne]
  exact incrementSymbols_spec_not_max hnd h2 hmem hnm

theorem incrementStringPart_of_max (g : Gen) (hnd : g.alphabet.Nodup)
    (h2 : 2 ≤ g.base) {v : List Char} (hmem : ∀ c ∈ v, c ∈ g.alphabet)
    (hmax : isMaxValue g.alphabet v = true) :
    incrementStringPart g v =
      if v.length = g.chronoLength then minChronoPart g else minMachineIdPart g := by
  rw [incrementStringPart, incRev_eq_none_of_max hnd h2 hmem hmax]

theorem incrementStringPart_ne_self (g : Gen) (hnd : g.alphabet.Nodup)
    (h2 : 2 ≤ g.base) {v : List Char} (hmem : ∀ c ∈ v, c ∈ g.alphabet)
    (hnm : isMaxValue g.alphabet v = false) : incrementStringPart g v ≠ v := by
  intro he
  have hv := (incrementStringPart_spec_not_max g hnd h2 hmem hnm).1
  rw [he] at hv
  omega

theorem incrementStringPart_length_any (g : Gen) {v : List Char}
    (hv : v.length = g.chronoLength ∨ v.length = machineIdLength g) :
    (incrementStringPart g v).length = v.length := by
  cases hrec : incRev g.alphabet v.reverse with
  | none =>
    rw [incrementStringPart, hrec]
    by_cases hc : v.length = g.chronoLength
    · rw [if_pos hc, minChronoPart, List.length_replicate, hc]
    · rw [if_neg hc, minMachineIdPart, List.length_replicate]
      rcases hv with h | h
      · exact absurd h hc
      · rw [h]
  | some out =>
    rw [incrementStringPart, hrec]
    have := incRev_some_length hrec
    simp only [List.length_reverse] at this ⊢
    exact this

theorem incrementStringPart_mem (g : Gen) (hnd : g.alphabet.Nodup)
    (h2 : 2 ≤ g.base) {v : List Char} (hmem : ∀ c ∈ v, c ∈ g.alphabet) :
    ∀ c ∈ incrementStringPart g v, c ∈ g.alphabet := by
  cases hrec : incRev g.alphabet v.reverse with
  | none =>
    rw [incrementStringPart, hrec]
    intro c hc
    by_cases hcl : v.length = g.chronoLength
    · rw [if_pos hcl] at hc
      rw [List.eq_of_mem_replicate hc]
      exact getD_mem_of_lt (by unfold Gen.base at h2; omega)
    · rw [if_neg hcl] at hc
      rw [List.eq_of_mem_replicate hc]
      exact getD_mem_of_lt (by unfold Gen.base at h2; omega)
  | some out =>
    rw [incrementStringPart, hrec]
    obtain ⟨_, _, hm⟩ := incRev_some_spec hnd h2
      (fun c hc => hmem c (List.mem_reverse.1 hc)) hrec
    intro c hc
    exact hm c (List.mem_reverse.1 hc)

theorem mem_minChronoPart (g : Gen) (h2 : 2 ≤ g.base) :
    ∀ c ∈ minChronoPart g, c ∈ g.alphabet := by
  intro c hc
  rw [minChronoPart] at hc
  rw [List.eq_of_mem_replicate hc, alpha0]
  exact getD_mem_of_lt (by unfold Gen.base at h2; omega)

theorem encodeTimestamp_length_ok (g : Gen) (hok : GenOK g) {ts : ℚ}
    (h0 : 0 ≤ ts) (hlt : ts < g.maxTimestamp) :
    (encodeTimestamp g ts).length = g.timestampLength := by
  obtain ⟨hnd, h2, hc1, hlen, hmax⟩ := hok
  apply encodeTimestamp_length g h2
  have hq : ts < ((g.base ^ g.timestampLength : ℕ) : ℚ) :=
    lt_of_lt_of_le hlt (by push_cast at hmax ⊢; exact hmax)
  have hz : Int.floor ts < ((g.base ^ g.timestampLength : ℕ) : ℤ) := by
    rw [Int.floor_lt]
    exact_mod_cast hq
  have hp : 0 < g.base ^ g.timestampLength := Nat.pow_pos (by omega)
  omega

theorem decodeValue_encodeTimestamp_toNat (g : Gen) (hnd : g.alphabet.Nodup)
    (h2 : 2 ≤ g.base) (ts : ℚ) :
    decodeValue g.alphabet (encodeTimestamp g ts) = ((Int.floor ts).toNat : ℤ) :=
  decodeValue_encodeTimestamp g hnd h2 ts

/-- C10: consecutive completed `generate` calls can return the SAME
identifier, refuting both the claimed strict lexicographic increase and
the claimed pairwise distinctness: once the chrono and machine-id
fields are saturated, a RateExceeded failure still resets the cached
chrono part to the minimum while keeping the saturated identifier, and
the next same-bucket call rebuilds and returns that identifier
verbatim — in this trace the second and the fourth completed calls both
return "001111". -/
theorem C10_duplicate_after_rate_exceeded :
    generate gBin (initState gBin) 1 ['1', '1'] =
        (.ok ['0', '0', '1', '0', '1', '1'], stP) ∧
    generate gBin stP 1 ['0', '0'] = (.ok ['0', '0', '1', '1', '1', '1'], stMax) ∧
    generate gBin stMax 1 ['0', '0'] = (.error .rateExceeded, stErr) ∧
    generate gBin stErr 1 ['0', '0'] = (.ok ['0', '0', '1', '1', '1', '1'], stMax) :=
  ⟨by decide, by decide, by decide, by decide⟩

end SortableNanoid

